import Mathlib

/-!
# flower-detect: label codec, feature extraction and orchestration

A shallow embedding of `main.go` and the properties of its codec (`bin`,
`dec`), of the pixel scan of `decodeImage`, of `makeModel` and of the
inference loop of `main`.

Modelling conventions.

* Go `float64` values are modelled by exact rationals (`ℚ`), the reals of the
  specification. The codec only stores the values `0` and `1` and compares
  against the constant `0.9`, read as `9 / 10`; the pixel scan divides a
  16-bit sample by `255`. NaN and the infinities are outside the model.
* Go `int` is 64 bits wide. Values are modelled by `Int`; where the source can
  overflow (`n += 1 << uint(i)` in `dec`) the result is wrapped explicitly.
* Code that lives in other packages (`gobrain`, `image`, `smartcrop`,
  `resize`, the file system) is taken as a parameter.
-/

namespace FlowerDetect

/-! ## Label codec -/

/-- Wrap an integer into the range of a 64-bit two's complement Go `int`. -/
def wrapInt (x : Int) : Int := (x + 2 ^ 63) % 2 ^ 64 - 2 ^ 63

/-- Go `x << s` on `int`: multiply by `2 ^ s` and keep the low 64 bits. -/
def shl (x : Int) (s : Nat) : Int := wrapInt (x * 2 ^ s)

/-- Source `bin` (main.go 22-28): `f[i] = float64((n >> i) & 1)` for `i < 8`.
`>>` on a signed `int` is the arithmetic shift, `&` is two's complement and. -/
def bin (n : Int) : List ℚ :=
  (List.range 8).map (fun (i : Nat) => ((Int.land (n >>> i) 1 : Int) : ℚ))

/-- The loop of `dec` from position `i` on with accumulator `n`:
`if v > 0.9 { n += 1 << uint(i) }`. -/
def decLoop : Nat → Int → List ℚ → Int
  | _, n, [] => n
  | i, n, v :: d => decLoop (i + 1) (if v > 0.9 then wrapInt (n + shl 1 i) else n) d

/-- Source `dec` (main.go 30-38). -/
def dec (d : List ℚ) : Int := decLoop 0 0 d

/-- A codeword in the sense of the data model: exactly 8 components, each
`0.0` or `1.0`. -/
def IsCodeword (c : List ℚ) : Prop := c.length = 8 ∧ ∀ v ∈ c, v = 0 ∨ v = 1

/-- Value of a vector read as thresholded bits, least significant first
(used to describe `dec`; not part of the source). -/
def bitsVal : List ℚ → Nat
  | [] => 0
  | v :: d => (if v > 0.9 then 1 else 0) + 2 * bitsVal d

/-! ## Feature extractor -/

/-- The four results of Go's `color.Color.RGBA()`, each a `uint32`. -/
structure Color where
  r : Nat
  g : Nat
  b : Nat
  a : Nat

/-- The part of `image.Image` that `decodeImage` can see: the rectangle
`Bounds()`, given by its corner `Min` and its extent `Dx()`, `Dy()`, and the
accessor `At(x, y)`, which takes absolute coordinates as in Go. -/
structure Image where
  MinX : Int
  MinY : Int
  Dx : Nat
  Dy : Nat
  At : Int → Int → Color

/-- Pixel `(x, y)` of the grid of `src`, counted from the corner of its
bounds: `src.At(Min.X + x, Min.Y + y)`. -/
def Image.pixel (src : Image) (x y : Nat) : Color :=
  src.At (src.MinX + (x : Int)) (src.MinY + (y : Int))

/-- An image of one of Go's standard kinds with bounds
`(minX, minY)-(minX + dx, minY + dy)` and grid `pix`: `At` returns the stored
pixel inside the bounds and the zero colour outside. -/
def gridImage (minX minY : Int) (dx dy : Nat) (pix : Nat → Nat → Color) : Image :=
  { MinX := minX, MinY := minY, Dx := dx, Dy := dy,
    At := fun x y =>
      if minX ≤ x ∧ x < minX + (dx : Int) ∧ minY ≤ y ∧ y < minY + (dy : Int) then
        pix (x - minX).toNat (y - minY).toNat
      else { r := 0, g := 0, b := 0, a := 0 } }

/-- Body of the inner loop of `decodeImage` (main.go 75-78): the three
assignments for the loop indices `(x, y)`, which go to `src.At(x, y)` as they
are. -/
def writePixel (src : Image) (w y : Nat) (bb : List ℚ) (x : Nat) : List ℚ :=
  let c := src.At (x : Int) (y : Int)
  ((bb.set (y * w * 3 + x * 3) ((c.r : ℚ) / 255)).set
    (y * w * 3 + x * 3 + 1) ((c.g : ℚ) / 255)).set
    (y * w * 3 + x * 3 + 2) ((c.b : ℚ) / 255)

/-- Inner loop `for x := 0; x < w; x++` of `decodeImage` for row `y`. -/
def scanRow (src : Image) (w : Nat) (bb : List ℚ) (y : Nat) : List ℚ :=
  (List.range w).foldl (writePixel src w y) bb

/-- Source `decodeImage` from line 65 on (main.go 65-81), applied to the
image `src` that `cropImage` returned. Opening and decoding the file and the
crop and resize are external. Only the extent of `Bounds()` is used; the
scan runs over `0 ≤ x < w`, `0 ≤ y < h`. Every index written lies inside
`bb`, so the assignments never go out of range. -/
def decodeImage (src : Image) : List ℚ :=
  let w := src.Dx
  let h := src.Dy
  let w := if w < h then h else w
  let h := w
  let bb := List.replicate (w * h * 3) (0 : ℚ)
  (List.range h).foldl (scanRow src w) bb

/-- An opaque white 75 × 75 image with bounds `(0,0)-(75,75)`: `RGBA()` of
white is `0xffff` on every channel. -/
def whiteImage : Image :=
  gridImage 0 0 75 75 (fun _ _ => { r := 65535, g := 65535, b := 65535, a := 65535 })

/-- A 75 × 75 image with bounds `(24,0)-(99,75)`, as `SubImage` gives for the
crop rectangle `(24,0)-(99,75)` of a 100 × 75 picture and `resize.Resize`
hands back unchanged because it already measures 75 × 75. Its samples are
those of the picture: red the absolute column, green the row, blue their
sum. -/
def croppedImage : Image :=
  gridImage 24 0 75 75 (fun x y => { r := 24 + x, g := y, b := 24 + x + y, a := 65535 })

/-! ## Orchestrator -/

/-- A training pattern `[][]float64{b, bin(i)}`: input vector and target. -/
abbrev Pattern := List ℚ × List ℚ

/-- The operations of `gobrain.FeedForward` used by `makeModel`, over an
abstract network type: the zero value `&gobrain.FeedForward{}`, `Init` and
`Train`, taken as total operations. -/
structure Gobrain (Net : Type) where
  new : Net
  init : Net → Nat → Nat → Nat → Net
  train : Net → List Pattern → Nat → ℚ → ℚ → Bool → Net

/-- The loop of `makeModel` (main.go 144-152) from category index `i` on.
`loadImageSet` reads the file system and is a parameter. -/
def collectPatterns (loadImageSet : String → Except String (List (List ℚ))) :
    Nat → List String → List Pattern → Except String (List Pattern)
  | _, [], patterns => .ok patterns
  | i, category :: rest, patterns =>
    match loadImageSet category with
    | .error err => .error err
    | .ok bset =>
      collectPatterns loadImageSet (i + 1) rest
        (patterns ++ bset.map (fun b => (b, bin (i : Int))))

/-- Source `makeModel` (main.go 141-159). -/
def makeModel {Net : Type} (gb : Gobrain Net)
    (loadImageSet : String → Except String (List (List ℚ)))
    (labels : List String) : Except String Net :=
  let ff := gb.new
  match collectPatterns loadImageSet 0 labels [] with
  | .error err => .error err
  | .ok patterns =>
    match patterns with
    | [] => .error "No images found"
    | p0 :: _ =>
      if p0.1.length = 0 then .error "No images found"
      else
        let ff := gb.init ff p0.1.length 40 p0.2.length
        .ok (gb.train ff patterns 1000 0.6 0.4 false)

/-- The branch `if ff == nil` of `main` (main.go 177-187): train, then save.
The second component is the content of `model.json` afterwards, `file` being
its content before; `log.Fatal` ends the run before `saveModel`. An I/O
failure inside `saveModel` is not modelled. -/
def mainTrain {Net : Type} (gb : Gobrain Net)
    (loadImageSet : String → Except String (List (List ℚ)))
    (labels : List String) (file : Option Net) : Except String Net × Option Net :=
  match makeModel gb loadImageSet labels with
  | .error err => (.error err, file)
  | .ok ff => (.ok ff, some ff)

/-- The pattern set `makeModel` assembles when every image set loads:
category `i` contributes its samples, in order, each paired with `bin i`. -/
def assembled (sets : String → List (List ℚ)) (i : Nat) : List String → List Pattern
  | [] => []
  | category :: rest =>
    (sets category).map (fun b => (b, bin (i : Int))) ++ assembled sets (i + 1) rest

/-- A stand-in for `gobrain` whose network records its training patterns. -/
def recordingGobrain : Gobrain (List Pattern) :=
  { new := [], init := fun ff _ _ _ => ff, train := fun _ patterns _ _ _ _ => patterns }

/-- One iteration of the inference loop of `main` after `decodeImage`
(main.go 199-204). `out1` and `out2` are the results of the two calls
`ff.Update(input)`; the result is the line printed, `none` when the index
expression `labels[...]` is out of range. -/
def classify (labels : List String) (out1 out2 : List ℚ) : Option String :=
  let n := dec out1
  if 0 ≤ n ∧ n < (labels.length : Int) then
    let m := dec out2
    if 0 ≤ m ∧ m < (labels.length : Int) then labels[m.toNat]? else none
  else some "unknown image"


/-! ## Codec: auxiliary lemmas -/

theorem testBit_succ_of_lt_two (a k : Nat) (h : a < 2) : Nat.testBit a (k + 1) = false := by
  apply Nat.testBit_lt_two_pow
  calc a < 2 := h
    _ = 2 ^ 1 := by norm_num
    _ ≤ 2 ^ (k + 1) := Nat.pow_le_pow_right (by norm_num) (by omega)

theorem ldiff_one (m : Nat) : Nat.ldiff 1 m = (m + 1) % 2 := by
  apply Nat.eq_of_testBit_eq
  intro k
  rw [Nat.testBit_ldiff]
  cases k with
  | zero =>
    simp only [Nat.testBit_zero]
    rcases Nat.mod_two_eq_zero_or_one m with h | h <;>
      simp [h, Nat.add_mod, Nat.succ_mod_two_eq_one_iff]
  | succ k =>
    rw [testBit_succ_of_lt_two 1 k (by norm_num),
      testBit_succ_of_lt_two _ k (Nat.mod_lt _ (by norm_num))]
    rfl

/-- Two's complement `x & 1` is the parity of `x`. -/
theorem land_one (x : Int) : Int.land x 1 = x % 2 := by
  cases x with
  | ofNat m =>
    show ((m &&& 1 : Nat) : Int) = _
    rw [Nat.and_one_is_mod]; rfl
  | negSucc m =>
    show ((Nat.ldiff 1 m : Nat) : Int) = _
    rw [ldiff_one, Int.negSucc_eq]
    omega

theorem bin_eq (n : Int) :
    bin n = (List.range 8).map (fun k => ((n / 2 ^ k % 2 : Int) : ℚ)) := by
  unfold bin
  apply List.map_congr_left
  intro k _
  rw [land_one, Int.shiftRight_eq_div_pow]
  norm_cast

theorem bin_natCast (n : Nat) :
    bin (n : Int) = (List.range 8).map (fun k => ((n / 2 ^ k % 2 : Nat) : ℚ)) := by
  rw [bin_eq]
  apply List.map_congr_left
  intro k _
  norm_cast

theorem bin_length (n : Int) : (bin n).length = 8 := by
  simp [bin]

theorem wrapInt_of_range (x : Int) (h0 : -2 ^ 63 ≤ x) (h1 : x < 2 ^ 63) : wrapInt x = x := by
  unfold wrapInt
  rw [Int.emod_eq_of_lt (by omega) (by omega)]
  omega

theorem bitsVal_lt (d : List ℚ) : bitsVal d < 2 ^ d.length := by
  induction d with
  | nil => simp [bitsVal]
  | cons v d ih =>
    simp only [bitsVal, List.length_cons, pow_succ]
    split_ifs <;> omega

theorem decLoop_eq (d : List ℚ) : ∀ (i : Nat) (n : Int), 0 ≤ n → n < 2 ^ i →
    i + d.length ≤ 63 → decLoop i n d = n + 2 ^ i * (bitsVal d : Int) := by
  induction d with
  | nil => intro i n _ _ _; simp [decLoop, bitsVal]
  | cons v d ih =>
    intro i n h0 h1 hlen
    simp only [List.length_cons] at hlen
    have hpow : (2 : Int) ^ (i + 1) ≤ 2 ^ 63 := pow_le_pow_right₀ (by norm_num) (by omega)
    have hpos : (0 : Int) < 2 ^ i := by positivity
    have hsucc : (2 : Int) ^ (i + 1) = 2 * 2 ^ i := by ring
    have hshl : shl 1 i = 2 ^ i := by
      unfold shl
      rw [one_mul]
      exact wrapInt_of_range _ (by omega) (by omega)
    simp only [decLoop, bitsVal]
    by_cases hv : v > 0.9
    · simp only [hv, if_true]
      rw [hshl, wrapInt_of_range _ (by omega) (by omega),
        ih (i + 1) _ (by omega) (by omega) (by omega)]
      push_cast
      ring
    · simp only [hv, if_false]
      rw [ih (i + 1) _ h0 (by omega) (by omega)]
      push_cast
      ring

theorem dec_eq_bitsVal (d : List ℚ) (h : d.length ≤ 63) : dec d = (bitsVal d : Int) := by
  unfold dec
  rw [decLoop_eq d 0 0 (le_refl _) (by norm_num) (by omega)]
  simp

theorem bitsVal_eq_sum (d : List ℚ) :
    bitsVal d = ∑ k ∈ Finset.range d.length, if d.getD k 0 > 0.9 then 2 ^ k else 0 := by
  induction d with
  | nil => simp [bitsVal]
  | cons v d ih =>
    rw [List.length_cons, Finset.sum_range_succ', bitsVal, ih, Finset.mul_sum]
    simp only [List.getD_cons_succ, List.getD_cons_zero, pow_zero, pow_succ, mul_ite, mul_zero]
    rw [add_comm]
    congr 1
    apply Finset.sum_congr rfl
    intro k _
    split_ifs <;> ring

theorem sum_testBit (n m : Nat) :
    (∑ k ∈ Finset.range m, if n.testBit k then 2 ^ k else 0) = n % 2 ^ m := by
  induction m with
  | zero => simp [Nat.mod_one]
  | succ m ih =>
    rw [Finset.sum_range_succ, ih, Nat.testBit_to_div_mod, pow_succ, Nat.mod_mul]
    rcases Nat.mod_two_eq_zero_or_one (n / 2 ^ m) with h | h <;> simp [h]

theorem bitsVal_of_bits (d : List ℚ) (i : Nat) (hi : i < 2 ^ d.length)
    (hbits : ∀ k, k < d.length → (d.getD k 0 > 0.9 ↔ i.testBit k = true)) :
    bitsVal d = i := by
  rw [bitsVal_eq_sum, ← Nat.mod_eq_of_lt hi, ← sum_testBit]
  apply Finset.sum_congr rfl
  intro k hk
  rw [Finset.mem_range] at hk
  by_cases h : d.getD k 0 > 0.9
  · rw [if_pos h, if_pos ((hbits k hk).1 h)]
  · rw [if_neg h, if_neg (fun h2 => h ((hbits k hk).2 h2))]

theorem decLoop_of_le (d : List ℚ) (h : ∀ v ∈ d, v ≤ 0.9) (i : Nat) (n : Int) :
    decLoop i n d = n := by
  induction d generalizing i with
  | nil => rfl
  | cons v d ih =>
    have hv : ¬ v > 0.9 := not_lt.mpr (h v (List.mem_cons_self _ _))
    simp only [decLoop, hv, if_false]
    exact ih (fun u hu => h u (List.mem_cons_of_mem _ hu)) (i + 1)

theorem bin_getElem (n k : Nat) (hk : k < 8) :
    (bin (n : Int))[k]? = some (if n.testBit k then 1 else 0) := by
  rw [bin_natCast, List.getElem?_map, List.getElem?_range hk, Nat.testBit_to_div_mod]
  rcases Nat.mod_two_eq_zero_or_one (n / 2 ^ k) with h | h <;> simp [h]

theorem bitsVal_bin (n : Nat) (hn : n ≤ 255) : bitsVal (bin (n : Int)) = n := by
  apply bitsVal_of_bits
  · rw [bin_length]; omega
  · intro k hk
    rw [bin_length] at hk
    have h := bin_getElem n k hk
    rw [List.getD_eq_getElem?_getD, h]
    cases n.testBit k <;> norm_num

/-- Reading the thresholded bits of a 0/1 vector back gives the vector. -/
theorem bits_of_bitsVal (d : List ℚ) (h01 : ∀ v ∈ d, v = 0 ∨ v = 1) :
    (List.range d.length).map (fun k => ((bitsVal d / 2 ^ k % 2 : Nat) : ℚ)) = d := by
  induction d with
  | nil => rfl
  | cons v d ih =>
    have hd := ih (fun u hu => h01 u (List.mem_cons_of_mem _ hu))
    have hb : ((if v > 0.9 then 1 else 0 : Nat) : ℚ) = v := by
      rcases h01 v (List.mem_cons_self _ _) with h | h <;> subst h <;> norm_num
    have hhead : ((bitsVal (v :: d) / 2 ^ 0 % 2 : Nat) : ℚ) = v := by
      have h2 : bitsVal (v :: d) / 2 ^ 0 % 2 = (if v > 0.9 then 1 else 0) := by
        simp only [bitsVal, pow_zero, Nat.div_one]
        split_ifs <;> omega
      rw [h2, hb]
    have htail : List.map ((fun k => ((bitsVal (v :: d) / 2 ^ k % 2 : Nat) : ℚ)) ∘ Nat.succ)
        (List.range d.length) = d := by
      have hstep : List.map ((fun k => ((bitsVal (v :: d) / 2 ^ k % 2 : Nat) : ℚ)) ∘ Nat.succ)
          (List.range d.length)
          = List.map (fun k => ((bitsVal d / 2 ^ k % 2 : Nat) : ℚ)) (List.range d.length) := by
        apply List.map_congr_left
        intro k _
        simp only [Function.comp, bitsVal, Nat.succ_eq_add_one, pow_succ]
        rw [mul_comm (2 ^ k) 2, ← Nat.div_div_eq_div_mul]
        congr 3
        split_ifs <;> omega
      rw [hstep, hd]
    rw [List.length_cons, List.range_succ_eq_map, List.map_cons, List.map_map, hhead, htail]


theorem isCodeword_bin (i : Int) : IsCodeword (bin i) := by
  constructor
  · exact bin_length _
  · intro v hv
    rw [bin_eq, List.mem_map] at hv
    obtain ⟨k, _, rfl⟩ := hv
    rcases Int.emod_two_eq_zero_or_one (i / 2 ^ k) with h | h <;> rw [h] <;> norm_num

theorem bin_mod (i : Int) : bin i = bin (i % 256) := by
  rw [bin_eq, bin_eq]
  apply List.map_congr_left
  intro k hk
  rw [List.mem_range] at hk
  congr 1
  interval_cases k <;> norm_num <;> omega

/-! ## Label codec: the claims -/

/-- C1: for every integer `i` with `0 ≤ i ≤ 255`, decoding the codeword that
encodes `i` gives `i` back, `dec (bin i) = i`. -/
theorem dec_bin_roundtrip (i : Int) (h0 : 0 ≤ i) (h1 : i ≤ 255) : dec (bin i) = i := by
  obtain ⟨n, rfl⟩ := Int.eq_ofNat_of_zero_le h0
  rw [dec_eq_bitsVal _ (by rw [bin_length]; omega), bitsVal_bin n (by omega)]

theorem dec_bin_roundtrip_witness : dec (bin 77) = 77 :=
  dec_bin_roundtrip 77 (by decide) (by decide)

/-- C4: for a vector `d` of at most 8 components, `dec d` is the sum of `2 ^ k`
over exactly the positions `k` with `d[k] > 0.9` (strict comparison).
Consequently an 8-component vector whose components exceed `0.9` exactly at
the set bits of an index `i ≤ 255` decodes to `i`, and the empty vector and
every vector with all components `≤ 0.9` decode to `0`. -/
theorem dec_spec (d : List ℚ) (hlen : d.length ≤ 8) :
    dec d = ∑ k ∈ (Finset.range d.length).filter (fun k => d.getD k 0 > 0.9), (2 : Int) ^ k
    ∧ (∀ i : Nat, i ≤ 255 → d.length = 8 →
        (∀ k, k < 8 → (d.getD k 0 > 0.9 ↔ i.testBit k = true)) → dec d = (i : Int))
    ∧ (d = [] → dec d = 0)
    ∧ ((∀ v ∈ d, v ≤ 0.9) → dec d = 0) := by
  refine ⟨?_, ?_, ?_, ?_⟩
  · rw [dec_eq_bitsVal d (by omega), bitsVal_eq_sum, Finset.sum_filter]
    push_cast
    rfl
  · intro i hi h8 hbits
    rw [dec_eq_bitsVal d (by omega), bitsVal_of_bits d i (by rw [h8]; omega)
      (fun k hk => hbits k (by omega))]
  · intro h
    rw [h]
    rfl
  · intro h
    exact decLoop_of_le d h 0 0

theorem dec_spec_witness : dec [1, 0.9, 0.95] = 5 := by
  rw [(dec_spec [1, 0.9, 0.95] (by decide)).1]
  simp [Finset.sum_filter, Finset.sum_range_succ]
  norm_num

/-- C5: for every index `n` in `[0, 255]`, `bin n` has exactly 8 components
and its `k`-th component (`k < 8`) is `1.0` if bit `k` of `n` is set and `0.0`
otherwise, least significant bit first. -/
theorem bin_spec (n : Int) (h0 : 0 ≤ n) (h1 : n ≤ 255) :
    (bin n).length = 8 ∧
    ∀ k, k < 8 → (bin n)[k]? = some (if n.toNat.testBit k then 1 else 0) := by
  obtain ⟨m, rfl⟩ := Int.eq_ofNat_of_zero_le h0
  exact ⟨bin_length _, fun k hk => bin_getElem m k hk⟩

theorem bin_spec_witness : (bin 5).length = 8 ∧ (bin 5)[2]? = some 1 :=
  ⟨(bin_spec 5 (by decide) (by decide)).1,
    (bin_spec 5 (by decide) (by decide)).2 2 (by decide)⟩

/-- C6: for every codeword `c` (exactly 8 components, each `0.0` or `1.0`),
re-encoding the decoded index gives the same codeword, `bin (dec c) = c`; the
decoded index always lies in `[0, 255]`, so this holds in particular whenever
it is a valid category index. -/
theorem bin_dec_roundtrip (c : List ℚ) (hc : IsCodeword c) :
    bin (dec c) = c ∧ 0 ≤ dec c ∧ dec c ≤ 255 := by
  obtain ⟨hlen, h01⟩ := hc
  have hlt := bitsVal_lt c
  rw [hlen] at hlt
  rw [dec_eq_bitsVal c (by omega)]
  refine ⟨?_, by omega, by omega⟩
  have h := bits_of_bitsVal c h01
  rw [hlen] at h
  rw [bin_natCast, h]

theorem bin_dec_roundtrip_witness :
    bin (dec [1, 0, 1, 1, 0, 0, 0, 0]) = [1, 0, 1, 1, 0, 0, 0, 0] :=
  (bin_dec_roundtrip [1, 0, 1, 1, 0, 0, 0, 0] ⟨by decide, by simp⟩).1

/-- C10 as stated fails: `bin` returns a codeword for the index 256, the
codeword of index 0. -/
theorem bin_256_is_codeword : IsCodeword (bin 256) ∧ bin 256 = bin 0 :=
  ⟨isCodeword_bin 256, bin_mod 256⟩

/-- C10 amended: `bin` is total and rejects nothing. For every integer `i` it
returns a codeword, namely the one of the low 8 bits of `i`, so an index
outside `0..255` gets the codeword of `i mod 256`. -/
theorem bin_total (i : Int) : IsCodeword (bin i) ∧ bin i = bin (i % 256) :=
  ⟨isCodeword_bin i, bin_mod i⟩


/-! ## Inference loop -/

theorem dec_zero_one : dec [0, 1] = 2 := by
  norm_num [dec, decLoop, shl, wrapInt]

theorem classify_of_not_range (labels : List String) (out1 out2 : List ℚ)
    (h : ¬ (0 ≤ dec out1 ∧ dec out1 < (labels.length : Int))) :
    classify labels out1 out2 = some "unknown image" := by
  simp only [classify, h, if_false]

/-- C2: in the inference loop, for a non-empty label list and an output
vector `out` returned by both calls of the forward pass, when `n = dec out`
satisfies `0 ≤ n < len(labels)` the lookup `labels[n]` is in bounds and the
line emitted is exactly `labels[n]`. -/
theorem classify_registered (labels : List String) (out : List ℚ) (_hne : labels ≠ [])
    (h0 : 0 ≤ dec out) (h1 : dec out < (labels.length : Int)) :
    ∃ s, labels[(dec out).toNat]? = some s ∧ classify labels out out = some s := by
  have hlt : (dec out).toNat < labels.length := by omega
  refine ⟨labels[(dec out).toNat], List.getElem?_eq_getElem hlt, ?_⟩
  simp only [classify, h0, h1, and_self, if_true]
  exact List.getElem?_eq_getElem hlt

theorem classify_registered_witness :
    classify ["rose", "tulip", "lily"] [0, 1] [0, 1] = some "lily" := by
  obtain ⟨s, hs, hc⟩ := classify_registered ["rose", "tulip", "lily"] [0, 1] (by simp)
    (by rw [dec_zero_one]; decide) (by rw [dec_zero_one]; decide)
  rw [dec_zero_one] at hs
  rw [hc, ← hs]
  rfl

/-- C3 as stated fails: for the single label `rose` and an output vector
decoding to 2, the line emitted is not the string `unknown`. -/
theorem classify_not_unknown : classify ["rose"] [0, 1] [0, 1] ≠ some "unknown" := by
  rw [classify_of_not_range ["rose"] [0, 1] [0, 1] (by rw [dec_zero_one]; decide)]
  decide

/-- C3 amended: in the inference loop, whenever the decoded index of the
first forward pass is not a registered index (`dec out ≥ len(labels)`), the
line emitted is the literal string `unknown image`, whatever the label list
holds. -/
theorem classify_unregistered (labels : List String) (out1 out2 : List ℚ)
    (h : (labels.length : Int) ≤ dec out1) :
    classify labels out1 out2 = some "unknown image" :=
  classify_of_not_range labels out1 out2 (by omega)

theorem classify_unregistered_witness :
    classify ["rose"] [0, 1] [0, 1] = some "unknown image" :=
  classify_unregistered ["rose"] [0, 1] [0, 1] (by rw [dec_zero_one]; decide)


/-! ## Feature extractor: the pixel scan -/

theorem writePixel_length (src : Image) (w y x : Nat) (bb : List ℚ) :
    (writePixel src w y bb x).length = bb.length := by
  simp [writePixel]

theorem writePixel_other (src : Image) (w y x : Nat) (bb : List ℚ) (j : Nat)
    (hj : j < y * w * 3 + x * 3 ∨ y * w * 3 + x * 3 + 3 ≤ j) :
    (writePixel src w y bb x)[j]? = bb[j]? := by
  simp only [writePixel]
  rw [List.getElem?_set_ne (by omega), List.getElem?_set_ne (by omega),
    List.getElem?_set_ne (by omega)]

theorem writePixel_self (src : Image) (w y x : Nat) (bb : List ℚ)
    (hlen : y * w * 3 + x * 3 + 2 < bb.length) :
    (writePixel src w y bb x)[y * w * 3 + x * 3]? = some (((src.At x y).r : ℚ) / 255) ∧
    (writePixel src w y bb x)[y * w * 3 + x * 3 + 1]? = some (((src.At x y).g : ℚ) / 255) ∧
    (writePixel src w y bb x)[y * w * 3 + x * 3 + 2]? = some (((src.At x y).b : ℚ) / 255) := by
  simp only [writePixel]
  refine ⟨?_, ?_, ?_⟩
  · rw [List.getElem?_set_ne (by omega), List.getElem?_set_ne (by omega),
      List.getElem?_set_self (by omega)]
  · rw [List.getElem?_set_ne (by omega), List.getElem?_set_self (by simp; omega)]
  · rw [List.getElem?_set_self (by simp; omega)]

/-- Invariant of the inner loop after `m` columns of row `y`. -/
theorem scanCols_inv (src : Image) (w y : Nat) (bb : List ℚ) (m : Nat) :
    ((List.range m).foldl (writePixel src w y) bb).length = bb.length ∧
    (∀ j, (j < y * w * 3 ∨ y * w * 3 + m * 3 ≤ j) →
      ((List.range m).foldl (writePixel src w y) bb)[j]? = bb[j]?) ∧
    (∀ x, x < m → y * w * 3 + x * 3 + 2 < bb.length →
      ((List.range m).foldl (writePixel src w y) bb)[y * w * 3 + x * 3]?
        = some (((src.At x y).r : ℚ) / 255) ∧
      ((List.range m).foldl (writePixel src w y) bb)[y * w * 3 + x * 3 + 1]?
        = some (((src.At x y).g : ℚ) / 255) ∧
      ((List.range m).foldl (writePixel src w y) bb)[y * w * 3 + x * 3 + 2]?
        = some (((src.At x y).b : ℚ) / 255)) := by
  induction m with
  | zero => simp
  | succ m ih =>
    obtain ⟨ihlen, ihother, ihself⟩ := ih
    rw [List.range_succ, List.foldl_append]
    simp only [List.foldl_cons, List.foldl_nil]
    refine ⟨?_, ?_, ?_⟩
    · rw [writePixel_length, ihlen]
    · intro j hj
      rw [writePixel_other _ _ _ _ _ _ (by omega), ihother j (by omega)]
    · intro x hx hlen
      by_cases hxm : x = m
      · subst hxm
        exact writePixel_self _ _ _ _ _ (by rw [ihlen]; exact hlen)
      · have hlt : x < m := by omega
        rw [writePixel_other _ _ _ _ _ _ (by omega), writePixel_other _ _ _ _ _ _ (by omega),
          writePixel_other _ _ _ _ _ _ (by omega)]
        exact ihself x hlt hlen

/-- Invariant of the outer loop after `n` rows. -/
theorem scanRows_inv (src : Image) (w : Nat) (bb : List ℚ) (n : Nat) :
    ((List.range n).foldl (scanRow src w) bb).length = bb.length ∧
    (∀ j, n * w * 3 ≤ j → ((List.range n).foldl (scanRow src w) bb)[j]? = bb[j]?) ∧
    (∀ y x, y < n → x < w → y * w * 3 + x * 3 + 2 < bb.length →
      ((List.range n).foldl (scanRow src w) bb)[y * w * 3 + x * 3]?
        = some (((src.At x y).r : ℚ) / 255) ∧
      ((List.range n).foldl (scanRow src w) bb)[y * w * 3 + x * 3 + 1]?
        = some (((src.At x y).g : ℚ) / 255) ∧
      ((List.range n).foldl (scanRow src w) bb)[y * w * 3 + x * 3 + 2]?
        = some (((src.At x y).b : ℚ) / 255)) := by
  induction n with
  | zero => simp
  | succ n ih =>
    obtain ⟨ihlen, ihother, ihself⟩ := ih
    rw [List.range_succ, List.foldl_append]
    simp only [List.foldl_cons, List.foldl_nil]
    have hrow : scanRow src w ((List.range n).foldl (scanRow src w) bb) n
        = (List.range w).foldl (writePixel src w n) ((List.range n).foldl (scanRow src w) bb) :=
      rfl
    obtain ⟨rlen, rother, rself⟩ :=
      scanCols_inv src w n ((List.range n).foldl (scanRow src w) bb) w
    rw [← hrow] at rlen rother rself
    have hsucc : (n + 1) * w = n * w + w := Nat.succ_mul n w
    refine ⟨?_, ?_, ?_⟩
    · rw [rlen, ihlen]
    · intro j hj
      rw [rother j (by omega), ihother j (by omega)]
    · intro y x hy hx hlen
      by_cases hyn : y = n
      · subst hyn
        exact rself x hx (by rw [ihlen]; exact hlen)
      · have hle : (y + 1) * w ≤ n * w := Nat.mul_le_mul_right w (by omega)
        have hsy : (y + 1) * w = y * w + w := Nat.succ_mul y w
        rw [rother _ (by omega), rother _ (by omega), rother _ (by omega)]
        exact ihself y x (by omega) hx hlen

/-- Layout of the vector `decodeImage` builds for a square `n × n` image. -/
theorem decodeImage_square (src : Image) (n : Nat) (hx : src.Dx = n) (hy : src.Dy = n) :
    (decodeImage src).length = n * n * 3 ∧
    (∀ y x, y < n → x < n →
      (decodeImage src)[y * n * 3 + x * 3]? = some (((src.At x y).r : ℚ) / 255) ∧
      (decodeImage src)[y * n * 3 + x * 3 + 1]? = some (((src.At x y).g : ℚ) / 255) ∧
      (decodeImage src)[y * n * 3 + x * 3 + 2]? = some (((src.At x y).b : ℚ) / 255)) := by
  have hdef : decodeImage src
      = (List.range n).foldl (scanRow src n) (List.replicate (n * n * 3) (0 : ℚ)) := by
    simp [decodeImage, hx, hy]
  obtain ⟨hlen, _, hself⟩ := scanRows_inv src n (List.replicate (n * n * 3) (0 : ℚ)) n
  rw [hdef]
  refine ⟨by rw [hlen, List.length_replicate], ?_⟩
  intro y x hyn hxn
  apply hself y x hyn hxn
  rw [List.length_replicate]
  have hle : (y + 1) * n ≤ n * n := Nat.mul_le_mul_right n (by omega)
  have hsy : (y + 1) * n = y * n + n := Nat.succ_mul y n
  omega

/-- What the scan guarantees instead of `[0, 1]`: with 16-bit samples every
component of the vector of a 75 × 75 image lies in `[0, 257]`. -/
theorem decodeImage_range (src : Image) (hx : src.Dx = 75) (hy : src.Dy = 75)
    (hs : ∀ x y, (src.At x y).r ≤ 65535 ∧ (src.At x y).g ≤ 65535 ∧ (src.At x y).b ≤ 65535) :
    ∀ v ∈ decodeImage src, 0 ≤ v ∧ v ≤ 257 := by
  obtain ⟨hlen, hent⟩ := decodeImage_square src 75 hx hy
  have hbound : ∀ s : Nat, s ≤ 65535 → 0 ≤ (s : ℚ) / 255 ∧ (s : ℚ) / 255 ≤ 257 := by
    intro s hs
    have h1 : (s : ℚ) ≤ 65535 := by exact_mod_cast hs
    have h0 : (0 : ℚ) ≤ s := by positivity
    constructor
    · positivity
    · rw [div_le_iff₀ (by norm_num)]
      linarith
  intro v hv
  obtain ⟨i, hi⟩ := List.mem_iff_getElem?.mp hv
  have hilt : i < 75 * 75 * 3 := by
    rw [← hlen]
    by_contra hge
    rw [List.getElem?_eq_none (by omega)] at hi
    exact absurd hi (by simp)
  obtain ⟨hr, hg, hb⟩ := hent (i / 225) (i % 225 / 3) (by omega) (by omega)
  obtain ⟨sr, sg, sb⟩ := hs ((i % 225 / 3 : Nat) : Int) ((i / 225 : Nat) : Int)
  have hc : i % 3 = 0 ∨ i % 3 = 1 ∨ i % 3 = 2 := by omega
  rcases hc with h | h | h
  · rw [show i / 225 * 75 * 3 + i % 225 / 3 * 3 = i by omega, hi] at hr
    rw [Option.some.inj hr]
    exact hbound _ sr
  · rw [show i / 225 * 75 * 3 + i % 225 / 3 * 3 + 1 = i by omega, hi] at hg
    rw [Option.some.inj hg]
    exact hbound _ sg
  · rw [show i / 225 * 75 * 3 + i % 225 / 3 * 3 + 2 = i by omega, hi] at hb
    rw [Option.some.inj hb]
    exact hbound _ sb

/-- Layout of the vector for a 75 × 75 grid whose bounds start at the
origin: length 16875 and, for every pixel `(x, y)`, its red, green and blue
samples divided by 255 at `(y * 75 + x) * 3`, `+ 1`, `+ 2`. -/
theorem decodeImage_layout_of_origin (src : Image) (hmx : src.MinX = 0) (hmy : src.MinY = 0)
    (hx : src.Dx = 75) (hy : src.Dy = 75) :
    (decodeImage src).length = 16875 ∧
    (∀ x y, x < 75 → y < 75 →
      (decodeImage src)[(y * 75 + x) * 3]? = some (((src.pixel x y).r : ℚ) / 255) ∧
      (decodeImage src)[(y * 75 + x) * 3 + 1]? = some (((src.pixel x y).g : ℚ) / 255) ∧
      (decodeImage src)[(y * 75 + x) * 3 + 2]? = some (((src.pixel x y).b : ℚ) / 255)) := by
  obtain ⟨hlen, hent⟩ := decodeImage_square src 75 hx hy
  refine ⟨hlen, ?_⟩
  intro x y hx75 hy75
  have h := hent y x hy75 hx75
  have hidx : (y * 75 + x) * 3 = y * 75 * 3 + x * 3 := by ring
  have hpix : src.pixel x y = src.At (x : Int) (y : Int) := by
    simp [Image.pixel, hmx, hmy]
  rw [hidx, hpix]
  exact h

/-- C8 fails on the code: for the 75 × 75 grid `croppedImage`, whose bounds
start at `(24, 0)`, the vector has length 16875 but its entry for pixel
`(0, 0)` is `0`, read at `At(0, 0)` outside the bounds, and not that pixel's
red sample `24` divided by 255; that sample lands 24 pixels further on, in
the entry of pixel `(24, 0)`. -/
theorem decodeImage_ignores_origin :
    (decodeImage croppedImage).length = 16875 ∧
    (decodeImage croppedImage)[(0 * 75 + 0) * 3]? = some 0 ∧
    (decodeImage croppedImage)[(0 * 75 + 0) * 3]?
      ≠ some (((croppedImage.pixel 0 0).r : ℚ) / 255) ∧
    (decodeImage croppedImage)[(0 * 75 + 24) * 3]?
      = some (((croppedImage.pixel 0 0).r : ℚ) / 255) := by
  obtain ⟨hlen, hent⟩ := decodeImage_square croppedImage 75 rfl rfl
  have h0 := (hent 0 0 (by decide) (by decide)).1
  have h24 := (hent 0 24 (by decide) (by decide)).1
  have e0 : (decodeImage croppedImage)[(0 * 75 + 0) * 3]? = some 0 := by
    rw [show (0 * 75 + 0) * 3 = 0 * 75 * 3 + 0 * 3 from rfl, h0]
    norm_num [croppedImage, gridImage]
  have e24 : (decodeImage croppedImage)[(0 * 75 + 24) * 3]? = some (24 / 255) := by
    rw [show (0 * 75 + 24) * 3 = 0 * 75 * 3 + 24 * 3 from rfl, h24]
    norm_num [croppedImage, gridImage]
  have hp : ((croppedImage.pixel 0 0).r : ℚ) / 255 = 24 / 255 := by
    norm_num [Image.pixel, croppedImage, gridImage]
  refine ⟨hlen, e0, ?_, ?_⟩
  · rw [e0, hp]
    norm_num
  · rw [e24, hp]

/-- C7 fails on the code: the first component of the feature vector of an
opaque white 75 × 75 image is `65535 / 255 = 257`, outside `[0, 1]`. -/
theorem decodeImage_white_out_of_range :
    (decodeImage whiteImage)[0]? = some 257 ∧
    ∃ v ∈ decodeImage whiteImage, ¬ (0 ≤ v ∧ v ≤ 1) := by
  have h := ((decodeImage_square whiteImage 75 rfl rfl).2 0 0 (by decide) (by decide)).1
  have h0 : (decodeImage whiteImage)[0]? = some 257 := by
    rw [show (0 : Nat) = 0 * 75 * 3 + 0 * 3 from rfl, h]
    norm_num [whiteImage, gridImage]
  refine ⟨h0, 257, List.mem_iff_getElem?.mpr ⟨0, h0⟩, ?_⟩
  norm_num


/-! ## Training -/

theorem collectPatterns_ok (loadImageSet : String → Except String (List (List ℚ)))
    (sets : String → List (List ℚ)) (labels : List String) :
    ∀ (i : Nat) (acc : List Pattern), (∀ c ∈ labels, loadImageSet c = .ok (sets c)) →
      collectPatterns loadImageSet i labels acc = .ok (acc ++ assembled sets i labels) := by
  induction labels with
  | nil => intro i acc _; simp [collectPatterns, assembled]
  | cons c rest ih =>
    intro i acc h
    have hc := h c (List.mem_cons_self _ _)
    simp only [collectPatterns, hc, assembled]
    rw [ih (i + 1) _ (fun u hu => h u (List.mem_cons_of_mem _ hu)), List.append_assoc]

theorem assembled_eq_nil_iff (sets : String → List (List ℚ)) (labels : List String) :
    ∀ i : Nat, assembled sets i labels = [] ↔ ∀ c ∈ labels, sets c = [] := by
  induction labels with
  | nil => intro i; simp [assembled]
  | cons c rest ih =>
    intro i
    simp only [assembled, List.append_eq_nil, List.map_eq_nil_iff, ih (i + 1),
      List.mem_cons, forall_eq_or_imp]

theorem makeModel_nil {Net : Type} (gb : Gobrain Net)
    (loadImageSet : String → Except String (List (List ℚ))) :
    makeModel gb loadImageSet [] = .error "No images found" := rfl

theorem makeModel_loaded {Net : Type} (gb : Gobrain Net)
    (loadImageSet : String → Except String (List (List ℚ)))
    (sets : String → List (List ℚ)) (labels : List String)
    (hload : ∀ c ∈ labels, loadImageSet c = .ok (sets c)) :
    (∃ err, makeModel gb loadImageSet labels = .error err) ↔
      (assembled sets 0 labels = [] ∨
        ∃ p rest, assembled sets 0 labels = p :: rest ∧ p.1.length = 0) := by
  have hcol := collectPatterns_ok loadImageSet sets labels 0 [] hload
  rw [List.nil_append] at hcol
  unfold makeModel
  simp only [hcol]
  cases hpat : assembled sets 0 labels with
  | nil => simp
  | cons p rest =>
    by_cases hp : p.1.length = 0
    · simp [List.length_eq_zero.mp hp]
    · have hne : ¬ p.1 = [] := fun h => hp (List.length_eq_zero.mpr h)
      simp [hne]

theorem mainTrain_of_error {Net : Type} (gb : Gobrain Net)
    (loadImageSet : String → Except String (List (List ℚ)))
    (labels : List String) (file : Option Net) (err : String)
    (h : makeModel gb loadImageSet labels = .error err) :
    mainTrain gb loadImageSet labels file = (.error err, file) := by
  simp only [mainTrain, h]

theorem makeModel_of_patterns {Net : Type} (gb : Gobrain Net)
    (loadImageSet : String → Except String (List (List ℚ))) (labels : List String)
    (patterns : List Pattern)
    (hcol : collectPatterns loadImageSet 0 labels [] = .ok patterns)
    (hbad : patterns = [] ∨ ∃ p rest, patterns = p :: rest ∧ p.1.length = 0) :
    makeModel gb loadImageSet labels = .error "No images found" := by
  unfold makeModel
  simp only [hcol]
  rcases hbad with h | ⟨p, rest, h, hp⟩
  · subst h
    rfl
  · subst h
    simp only [hp, if_true]

/-- C9: `makeModel` fails, returning an error and no network, when no
category is registered, when the pattern set it assembled is empty and when
the first pattern's feature vector has length zero; when every image set
loads it fails exactly when no category is registered, or no category yields
a sample, or the first pattern's feature vector has length zero. Whenever it
fails, `main` stops before `saveModel`: `model.json` is left as it was. -/
theorem makeModel_fails_iff {Net : Type} (gb : Gobrain Net)
    (loadImageSet : String → Except String (List (List ℚ))) (labels : List String) :
    (labels = [] → makeModel gb loadImageSet labels = .error "No images found") ∧
    (∀ patterns, collectPatterns loadImageSet 0 labels [] = .ok patterns →
      (patterns = [] ∨ ∃ p rest, patterns = p :: rest ∧ p.1.length = 0) →
      makeModel gb loadImageSet labels = .error "No images found") ∧
    (∀ sets : String → List (List ℚ), (∀ c ∈ labels, loadImageSet c = .ok (sets c)) →
      ((∃ err, makeModel gb loadImageSet labels = .error err) ↔
        (labels = [] ∨ (∀ c ∈ labels, sets c = []) ∨
          ∃ p rest, assembled sets 0 labels = p :: rest ∧ p.1.length = 0))) ∧
    (∀ err, makeModel gb loadImageSet labels = .error err →
      ∀ file, mainTrain gb loadImageSet labels file = (.error err, file)) := by
  refine ⟨?_, ?_, ?_, ?_⟩
  · intro h
    rw [h]
    exact makeModel_nil gb loadImageSet
  · intro patterns hcol hbad
    exact makeModel_of_patterns gb loadImageSet labels patterns hcol hbad
  · intro sets hload
    rw [makeModel_loaded gb loadImageSet sets labels hload, assembled_eq_nil_iff]
    constructor
    · rintro (h | h)
      · exact Or.inr (Or.inl h)
      · exact Or.inr (Or.inr h)
    · rintro (h | h | h)
      · left
        intro c hc
        rw [h] at hc
        exact absurd hc (List.not_mem_nil c)
      · exact Or.inl h
      · exact Or.inr h
  · intro err h file
    exact mainTrain_of_error gb loadImageSet labels file err h

theorem makeModel_fails_iff_witness :
    (∃ err, makeModel recordingGobrain (fun _ => .ok [[]]) ["rose"] = .error err) ∧
    mainTrain recordingGobrain (fun _ => .ok [[]]) ["rose"] none
      = (.error "No images found", none) := by
  have h := makeModel_fails_iff recordingGobrain (fun _ => .ok [[]]) ["rose"]
  have hfail : ∃ err, makeModel recordingGobrain (fun _ => .ok [[]]) ["rose"] = .error err :=
    (h.2.2.1 (fun _ => [[]]) (fun _ _ => rfl)).2 (Or.inr (Or.inr ⟨([], bin 0), [], rfl, rfl⟩))
  exact ⟨hfail, h.2.2.2 "No images found" rfl none⟩

end FlowerDetect
